import Mathlib

/-!
Verification of the UI-State Synchronization Engine of gist-settings-sync.

The definitions below are a shallow embedding of the TypeScript sources:
  - src/uiStateSync/types.ts   (key filter, workspace resolver, sqlite
    extraction and apply pipeline, scheduler)
  - web/webview.ts             (sandbox message dispatcher, IndexedDB variant)
  - src/uiStateSync/codeServer.ts (host side of the message protocol)
JavaScript objects are represented as insertion-ordered association lists,
sqlite tables as ordered lists of (key, value) rows, and the per-database
try/catch of the extraction loop as an Option per database.
-/

namespace GistSync

/- ----------------------------------------------------------------------
   Key Filter (isSafeKey in types.ts lines 121-135 / webview.ts 79-94).
   The source compiles a wildcard pattern to the anchored regular
   expression built by escaping every special character except the
   asterisk and replacing each asterisk by the fragment [^.]* .
   wildMatchFuel executes exactly that anchored matching on character
   lists; the fuel argument only makes the recursion structural.
---------------------------------------------------------------------- -/

/-- One step of anchored wildcard matching: a pattern character other than
the asterisk matches itself, and an asterisk matches any run (possibly
empty) of characters different from the dot.  Fuel bounds recursion depth. -/
def wildMatchFuel : Nat → List Char → List Char → Bool
  | 0, _, _ => false
  | _ + 1, [], k => k.isEmpty
  | fuel + 1, c :: p, [] =>
    if c = '*' then wildMatchFuel fuel p [] else false
  | fuel + 1, c :: p, d :: k2 =>
    if c = '*' then
      wildMatchFuel fuel p (d :: k2) || ((d != '.') && wildMatchFuel fuel (c :: p) k2)
    else
      (d == c) && wildMatchFuel fuel p k2

/-- Anchored wildcard matching with enough fuel to be total. -/
def wildMatch (p k : List Char) : Bool :=
  wildMatchFuel (p.length + k.length + 1) p k

/-- Embedding of isSafeKey: an exact literal match on any pattern, or an
anchored wildcard match against any pattern that contains an asterisk. -/
def isSafeKey (key : String) (safeKeysToSync : List String) : Bool :=
  safeKeysToSync.contains key ||
    safeKeysToSync.any (fun safe =>
      safe.data.contains '*' && wildMatch safe.data key.data)

/-- The wildcard-matching relation as the specification words it: the key
equals the pattern with every asterisk replaced by some run of characters
that contains no dot, anchored to the whole key. -/
inductive WildSpec : List Char → List Char → Prop
  | nil : WildSpec [] []
  | lit {c : Char} {p k : List Char} :
      c ≠ '*' → WildSpec p k → WildSpec (c :: p) (c :: k)
  | star {p k : List Char} (s : List Char) :
      (∀ c ∈ s, c ≠ '.') → WildSpec p k → WildSpec ('*' :: p) (s ++ k)

/- ----------------------------------------------------------------------
   Workspace Resolver (getWorkspaceName, types.ts 103-115 / webview.ts
   104-116).  The source parses the marker value with the platform URL
   parser, splits the pathname on slashes, looks up the index of the
   ".vscode" segment exactly as Array.prototype.indexOf does, and when
   that index is positive returns the preceding segment; every other
   outcome, including a parse exception, yields null.
---------------------------------------------------------------------- -/

/-- Model of the platform URL parser (new URL followed by .pathname),
restricted to the file scheme as used by the marker values: a string
beginning with "file://" parses and its pathname is the remainder; any
other string throws, which the source catches and turns into null. -/
def parseURLPathname (s : String) : Option String :=
  if "file://".data.isPrefixOf s.data then some (String.mk (s.data.drop 7))
  else none

/-- Splitting a string on the slash character, as String.prototype.split
does: the empty string yields one empty segment, and a leading slash
yields a leading empty segment. -/
def splitSegAux : List Char → List Char → List String
  | [], acc => [String.mk acc.reverse]
  | c :: cs, acc =>
    if c = '/' then String.mk acc.reverse :: splitSegAux cs []
    else splitSegAux cs (c :: acc)

/-- Splitting the pathname on slashes. -/
def splitOnSlash (s : String) : List String :=
  splitSegAux s.data []

/-- Array.prototype.indexOf on a list of strings: the index of the first
occurrence, none standing for the -1 of the source. -/
def jsIndexOf : List String → String → Option Nat
  | [], _ => none
  | a :: l, x => if a == x then some 0 else (jsIndexOf l x).map (· + 1)

/-- Embedding of getWorkspaceName: parse the marker value as a URL
(catching the exception), split the pathname on slashes, and return the
segment preceding the first ".vscode" segment when its index is positive. -/
def getWorkspaceName (selectedRoot : String) : Option String :=
  match parseURLPathname selectedRoot with
  | none => none
  | some pathname =>
    let parts := splitOnSlash pathname
    match jsIndexOf parts ".vscode" with
    | some i => if 0 < i then some (parts.getD (i - 1) "") else none
    | none => none

/- ----------------------------------------------------------------------
   JavaScript objects as insertion-ordered association lists.
---------------------------------------------------------------------- -/

/-- Property lookup on an object: the value at the first matching key. -/
def objFind {α : Type} (m : List (String × α)) (k : String) : Option α :=
  (m.find? (fun p => p.1 == k)).map (·.2)

/-- Property assignment on an object: replace the value at an existing
key in place, otherwise append the new key at the end, preserving
insertion order exactly as JavaScript objects do.  This is also the
embedding of the SELECT-then-UPDATE-or-INSERT upsert of updateTable. -/
def objUpd {α : Type} (m : List (String × α)) (k : String) (v : α) :
    List (String × α) :=
  if m.any (fun p => p.1 == k) then
    m.map (fun p => if p.1 == k then (k, v) else p)
  else m ++ [(k, v)]

/- ----------------------------------------------------------------------
   Extraction Pipeline (extractDatabase, types.ts 173-211 / webview.ts
   147-204, and the merge loop of syncUIState, types.ts 262-301).
   A store map sends keys to values, a workspace map sends store names to
   store maps, and the snapshot sends workspace names to workspace maps;
   values read from the sqlite rows are strings.
---------------------------------------------------------------------- -/

/-- Mapping of keys to values from one table or object store. -/
abbrev UIStateData := List (String × String)

/-- Mapping of store names to UI state data. -/
abbrev WorkspaceData := List (String × UIStateData)

/-- Complete UI state data grouped by workspace name. -/
abbrev ExtractedData := List (String × WorkspaceData)

/-- One table of a state database: its name and its (key, value) rows in
enumeration order. -/
structure DbTable where
  name : String
  rows : List (String × String)
  deriving DecidableEq, Repr

/-- One state database: its tables in enumeration order. -/
structure Db where
  tables : List DbTable
  deriving DecidableEq, Repr

/-- The root-marker key. -/
def markerKey : String := "debug.selectedroot"

/-- Embedding of the inner row loop of extractDatabase: every row whose
key is nonempty and either equals the marker key or passes isSafeKey is
written into safeData, and the flag records whether the marker key was
seen. -/
def extractRowStep (safeKeys : List String) (acc : UIStateData × Bool)
    (kv : String × String) : UIStateData × Bool :=
  if kv.1 = "" then acc
  else if kv.1 == markerKey || isSafeKey kv.1 safeKeys then
    (objUpd acc.1 kv.1 kv.2, acc.2 || kv.1 == markerKey)
  else acc

/-- Embedding of the row loop of extractDatabase as a fold of the row
step over the rows in enumeration order. -/
def extractTableSafeData (safeKeys : List String)
    (rows : List (String × String)) : UIStateData × Bool :=
  rows.foldl (extractRowStep safeKeys) ([], false)

/-- Embedding of the per-table body of extractDatabase: a table without
the marker row contributes nothing; otherwise the workspace name is
resolved from the marker value, a falsy name (null or the empty string)
skips the table, and else the table's safeData is stored under
(workspaceName, tableName). -/
def extractDbStep (safeKeys : List String) (result : ExtractedData)
    (t : DbTable) : ExtractedData :=
  let sd := extractTableSafeData safeKeys t.rows
  if sd.2 = false then result
  else
    match objFind sd.1 markerKey with
    | none => result
    | some rootVal =>
      match getWorkspaceName rootVal with
      | none => result
      | some ws =>
        if ws = "" then result
        else objUpd result ws (objUpd ((objFind result ws).getD []) t.name sd.1)

/-- Embedding of extractDatabase: fold the per-table body over the tables
in enumeration order. -/
def extractDatabase (safeKeys : List String) (db : Db) : ExtractedData :=
  db.tables.foldl (extractDbStep safeKeys) []

/-- Embedding of the merge loop of syncUIState: one extraction result is
merged into the accumulator workspace by workspace and store by store; a
database whose extraction threw was caught and turned into null, which
merges as nothing. -/
def mergeStep (exported : ExtractedData) (r : Option ExtractedData) :
    ExtractedData :=
  match r with
  | none => exported
  | some data =>
    data.foldl
      (fun exp wsEntry =>
        objUpd exp wsEntry.1
          (wsEntry.2.foldl (fun c tEntry => objUpd c tEntry.1 tEntry.2)
            ((objFind exp wsEntry.1).getD [])))
      exported

/-- Embedding of the extraction phase of syncUIState over a storage given
as the enumerated databases, where none stands for a database whose read
threw (the error is caught and the database contributes nothing). -/
def syncUIState (safeKeys : List String) (storage : List (Option Db)) :
    ExtractedData :=
  (storage.map (Option.map (extractDatabase safeKeys))).foldl mergeStep []

/-- The state a sync cycle touches: the storage it reads and the
uiState.json fallback document it overwrites after a successful
extraction.  The extraction path opens every database read-only and runs
only SELECT queries, so the cycle leaves the storage as it found it. -/
structure UiSyncState where
  storage : List (Option Db)
  uiStateFile : Option ExtractedData
  deriving Repr

/-- Embedding of one syncUIState cycle: extract a snapshot from the
storage and persist it to the fallback document. -/
def syncUIStateCycle (safeKeys : List String) (s : UiSyncState) :
    ExtractedData × UiSyncState :=
  (syncUIState safeKeys s.storage,
   { storage := s.storage, uiStateFile := some (syncUIState safeKeys s.storage) })

/- ----------------------------------------------------------------------
   Apply Pipeline (setUIState and updateTable, types.ts 216-252 and
   308-353; the IndexedDB variant per-store put loop of webview.ts
   258-309 upserts in the same way).
---------------------------------------------------------------------- -/

/-- Embedding of the committed write loop of updateTable: for each
incoming key in order, check existence, then UPDATE the matching rows or
INSERT a fresh row at the end. -/
def updateTableRows (rows : List (String × String)) (newData : UIStateData) :
    List (String × String) :=
  newData.foldl (fun rs kv => objUpd rs kv.1 kv.2) rows

/-- Embedding of the per-table matching chain of setUIState: read the
marker row, skip the table when it is absent or falsy, resolve the
workspace name, skip when it is falsy, and look the (workspace, table)
pair up in the incoming snapshot. -/
def matchedMap (newState : ExtractedData) (t : DbTable) : Option UIStateData :=
  match objFind t.rows markerKey with
  | none => none
  | some rootVal =>
    if rootVal = "" then none
    else
      match getWorkspaceName rootVal with
      | none => none
      | some ws =>
        if ws = "" then none
        else
          match objFind newState ws with
          | none => none
          | some wsData => objFind wsData t.name

/-- Embedding of one table of the apply pass: an unmatched table is left
untouched, a matched one is updated with the incoming map in one
transaction. -/
def applyTable (newState : ExtractedData) (t : DbTable) : DbTable :=
  match matchedMap newState t with
  | none => t
  | some m => { t with rows := updateTableRows t.rows m }

/-- Embedding of the apply pass over one database. -/
def setUIStateDb (newState : ExtractedData) (db : Db) : Db :=
  { tables := db.tables.map (applyTable newState) }

/- ----------------------------------------------------------------------
   Sync Scheduler (types.ts 358-383).  startUiSync assigns a fresh
   interval to the module variable syncTimer without cancelling the one
   the variable held before; stopUiSync cancels the held interval;
   restartUiSync is stop then start.  The runtime's set of live interval
   timers is modelled by a list of identifiers.
---------------------------------------------------------------------- -/

/-- State of the scheduler: the runtime's live interval timers, the
module-level syncTimer handle, and a counter issuing fresh timer ids. -/
structure SchedulerState where
  activeTimers : List Nat
  syncTimer : Option Nat
  nextId : Nat
  deriving DecidableEq, Repr

/-- Embedding of startUiSync: setInterval creates a fresh live timer and
its handle overwrites syncTimer; the previously held timer, if any, stays
live because the source never clears it here. -/
def startUiSync (s : SchedulerState) : SchedulerState :=
  { activeTimers := s.activeTimers ++ [s.nextId]
    syncTimer := some s.nextId
    nextId := s.nextId + 1 }

/-- Embedding of stopUiSync: when syncTimer holds a handle, clearInterval
removes that timer from the runtime and the handle is reset. -/
def stopUiSync (s : SchedulerState) : SchedulerState :=
  match s.syncTimer with
  | none => s
  | some t =>
    { activeTimers := s.activeTimers.filter (fun i => i != t)
      syncTimer := none
      nextId := s.nextId }

/-- Embedding of restartUiSync: stop then start, the path a settings
change takes. -/
def restartUiSync (s : SchedulerState) : SchedulerState :=
  startUiSync (stopUiSync s)

/-- The scheduler before any start: no live timers, no held handle. -/
def idleScheduler : SchedulerState :=
  { activeTimers := [], syncTimer := none, nextId := 0 }

/- ----------------------------------------------------------------------
   Message protocol (codeServer.ts 184-195 host side, webview.ts 319-368
   sandbox side).
---------------------------------------------------------------------- -/

/-- The operations the sandbox message listener can run. -/
inductive SandboxAction where
  | applyUiState
  | startSyncCycle
  | stopSyncCycle
  | ignored
  deriving DecidableEq, Repr

/-- Embedding of the window message listener of webview.ts: the switch on
the inbound command tag.  Any other tag falls through to the default case
and nothing runs. -/
def dispatchWebviewCommand (cmd : String) : SandboxAction :=
  if cmd = "gistSettingsSync.setUiState" then SandboxAction.applyUiState
  else if cmd = "gistSettingsSync.syncUiState" then SandboxAction.startSyncCycle
  else if cmd = "gistSettingsSync.stopSyncUiState" then SandboxAction.stopSyncCycle
  else SandboxAction.ignored

/-- The command tag importUiState in codeServer.ts posts to the sandbox
together with the snapshot and settings. -/
def importUiStateCommand : String :=
  "gistSettingsSync.importUiState"

/- ----------------------------------------------------------------------
   Extraction with fallible table reads.  The row iteration of
   extractDatabase (types.ts 179-207) has no per-table catch: a SELECT
   that throws on one table rejects the whole database's extraction, and
   only syncUIState's per-database try/catch stops the error.
---------------------------------------------------------------------- -/

/-- A table whose row read may throw: none stands for the SELECT
iteration of extractDatabase raising, which nothing inside
extractDatabase catches. -/
structure FTable where
  name : String
  readRows : Option (List (String × String))
  deriving DecidableEq, Repr

/-- A database whose tables are read through the fallible interface. -/
structure FDb where
  tables : List FTable
  deriving DecidableEq, Repr

/-- Embedding of the per-table body of extractDatabase over fallible
reads: an exception already in flight skips everything, a failing row
read throws (nothing in extractDatabase catches it, so the whole call
rejects and the data of tables already read is discarded), and a
successful read runs the infallible per-table body. -/
def extractDbStepF (safeKeys : List String) (result : Option ExtractedData)
    (t : FTable) : Option ExtractedData :=
  match result with
  | none => none
  | some res =>
    match t.readRows with
    | none => none
    | some rows => some (extractDbStep safeKeys res ⟨t.name, rows⟩)

/-- Embedding of extractDatabase over fallible table reads: none is the
rejected promise syncUIState catches per database. -/
def extractDatabaseF (safeKeys : List String) (db : FDb) :
    Option ExtractedData :=
  db.tables.foldl (extractDbStepF safeKeys) (some [])

/-- Embedding of the extraction phase of syncUIState over fallible
storage: each database's rejection is caught (null) and contributes
nothing to the merge. -/
def syncUIStateF (safeKeys : List String) (storage : List FDb) :
    ExtractedData :=
  (storage.map (extractDatabaseF safeKeys)).foldl mergeStep []

/- ----------------------------------------------------------------------
   Concrete instances used to evaluate the embedding, mirroring the
   end-to-end example of the specification: one store holding the root
   marker of projA, one allowed key and one disallowed key.
---------------------------------------------------------------------- -/

/-- Rows of the sample store: the projA root marker, an allowed key and a
disallowed key. -/
def sampleRows : List (String × String) :=
  [("debug.selectedroot", "file:///home/u/projA/.vscode/launch.json"),
   ("workbench.sideBar.hidden", "true"),
   ("secret.token", "abc")]

/-- A sample database with a single table holding the sample rows. -/
def sampleDb : Db := ⟨[⟨"ItemTable", sampleRows⟩]⟩

/-- The sample SafeKeySet: one literal pattern. -/
def sampleKeys : List String := ["workbench.sideBar.hidden"]

/-- The per-store map extraction produces for the sample store. -/
def sampleStoreMap : UIStateData :=
  [("debug.selectedroot", "file:///home/u/projA/.vscode/launch.json"),
   ("workbench.sideBar.hidden", "true")]

/-- The per-workspace map extraction produces for the sample database. -/
def sampleWorkspaceData : WorkspaceData := [("ItemTable", sampleStoreMap)]

/-- An incoming snapshot for the apply pipeline: one key of the projA
sample store is overwritten, every other local key is absent from it. -/
def c3NewState : ExtractedData :=
  [("projA", [("ItemTable", [("workbench.sideBar.hidden", "false")])])]

/-- The local table the apply pipeline runs over in the C3 witness. -/
def c3Table : DbTable := ⟨"ItemTable", sampleRows⟩

/-- A sample table whose row read throws. -/
def brokenTable : FTable := ⟨"BrokenTable", none⟩

/-- A sample table whose row read succeeds with the sample rows. -/
def fineTable : FTable := ⟨"ItemTable", some sampleRows⟩

/-- A database where one store reads fine and a sibling store throws. -/
def mixedFDb : FDb := ⟨[fineTable, brokenTable]⟩

/-- The same database without the throwing store. -/
def fineFDb : FDb := ⟨[fineTable]⟩

/- ----------------------------------------------------------------------
   Wildcard matching lemmas: the executable matcher agrees with the
   run-of-no-dot-characters reading of a wildcard pattern.
---------------------------------------------------------------------- -/

theorem wildMatchFuel_congr :
    ∀ f1 f2 p k, p.length + k.length < f1 → p.length + k.length < f2 →
      wildMatchFuel f1 p k = wildMatchFuel f2 p k := by
  intro f1
  induction f1 with
  | zero => intro f2 p k h1 _; omega
  | succ n ih =>
    intro f2 p k h1 h2
    match f2 with
    | 0 => omega
    | m + 1 =>
      match p, k with
      | [], k => rfl
      | c :: p2, [] =>
        simp only [wildMatchFuel]
        by_cases hc : c = '*'
        · rw [if_pos hc, if_pos hc, ih m p2 [] (by simp at h1 ⊢; omega) (by simp at h2 ⊢; omega)]
        · rw [if_neg hc, if_neg hc]
      | c :: p2, d :: k2 =>
        simp only [wildMatchFuel]
        by_cases hc : c = '*'
        · rw [if_pos hc, if_pos hc,
            ih m p2 (d :: k2) (by simp at h1 ⊢; omega) (by simp at h2 ⊢; omega),
            ih m (c :: p2) k2 (by simp at h1 ⊢; omega) (by simp at h2 ⊢; omega)]
        · rw [if_neg hc, if_neg hc,
            ih m p2 k2 (by simp at h1 ⊢; omega) (by simp at h2 ⊢; omega)]

theorem wildMatchFuel_eq_wildMatch (f : Nat) (p k : List Char)
    (h : p.length + k.length < f) : wildMatchFuel f p k = wildMatch p k :=
  wildMatchFuel_congr f (p.length + k.length + 1) p k h (by omega)

theorem wildMatch_nil (k : List Char) : wildMatch [] k = k.isEmpty := rfl

theorem wildMatch_star_nil (p : List Char) :
    wildMatch ('*' :: p) [] = wildMatch p [] := by
  show wildMatchFuel (p.length + 1 + 0 + 1) ('*' :: p) [] = _
  conv_lhs => rw [wildMatchFuel]
  rw [if_pos rfl, wildMatchFuel_eq_wildMatch _ _ _ (by simp)]

theorem wildMatch_star_cons (p : List Char) (d : Char) (k2 : List Char) :
    wildMatch ('*' :: p) (d :: k2) =
      (wildMatch p (d :: k2) || ((d != '.') && wildMatch ('*' :: p) k2)) := by
  show wildMatchFuel _ ('*' :: p) (d :: k2) = _
  conv_lhs => rw [wildMatchFuel]
  rw [if_pos rfl,
    wildMatchFuel_eq_wildMatch _ _ _ (by simp only [List.length_cons]; omega),
    wildMatchFuel_eq_wildMatch _ _ _ (by simp only [List.length_cons]; omega)]

theorem wildMatch_lit_nil (c : Char) (p : List Char) (hc : c ≠ '*') :
    wildMatch (c :: p) [] = false := by
  show wildMatchFuel _ (c :: p) [] = _
  conv_lhs => rw [wildMatchFuel]
  rw [if_neg hc]

theorem wildMatch_lit_cons (c : Char) (p : List Char) (d : Char)
    (k2 : List Char) (hc : c ≠ '*') :
    wildMatch (c :: p) (d :: k2) = ((d == c) && wildMatch p k2) := by
  show wildMatchFuel _ (c :: p) (d :: k2) = _
  conv_lhs => rw [wildMatchFuel]
  rw [if_neg hc, wildMatchFuel_eq_wildMatch _ _ _ (by simp only [List.length_cons]; omega)]

theorem wildMatchFuel_sound :
    ∀ fuel p k, wildMatchFuel fuel p k = true → WildSpec p k := by
  intro fuel
  induction fuel with
  | zero => intro p k h; simp [wildMatchFuel] at h
  | succ n ih =>
    intro p k h
    match p, k with
    | [], k =>
      simp only [wildMatchFuel, List.isEmpty_iff] at h
      subst h
      exact WildSpec.nil
    | c :: p2, [] =>
      by_cases hc : c = '*'
      · subst hc
        rw [wildMatchFuel, if_pos rfl] at h
        have := WildSpec.star [] (by simp) (ih p2 [] h)
        simpa using this
      · rw [wildMatchFuel, if_neg hc] at h
        exact absurd h (by simp)
    | c :: p2, d :: k2 =>
      by_cases hc : c = '*'
      · subst hc
        rw [wildMatchFuel, if_pos rfl] at h
        rcases Bool.or_eq_true_iff.mp h with h1 | h2
        · have := WildSpec.star [] (by simp) (ih p2 (d :: k2) h1)
          simpa using this
        · rcases Bool.and_eq_true_iff.mp h2 with ⟨hd, hm⟩
          have hspec := ih _ _ hm
          cases hspec with
          | lit hne _ => exact absurd rfl hne
          | star s hs hw =>
            have hd' : d ≠ '.' := by simpa using hd
            have := WildSpec.star (d :: s)
              (by intro c hcmem
                  rcases List.mem_cons.mp hcmem with h | h
                  · subst h; exact hd'
                  · exact hs c h) hw
            simpa using this
      · rw [wildMatchFuel, if_neg hc] at h
        rcases Bool.and_eq_true_iff.mp h with ⟨hd, hm⟩
        have hd' : d = c := by simpa using hd
        subst hd'
        exact WildSpec.lit hc (ih p2 k2 hm)

theorem wildMatch_sound (p k : List Char) (h : wildMatch p k = true) :
    WildSpec p k := wildMatchFuel_sound _ p k h

theorem wildMatch_star_of (p k : List Char) (h : wildMatch p k = true) :
    wildMatch ('*' :: p) k = true := by
  match k with
  | [] => rw [wildMatch_star_nil]; exact h
  | d :: k2 => rw [wildMatch_star_cons, h]; rfl

theorem wildMatch_star_prepend (p s k : List Char)
    (hs : ∀ c ∈ s, c ≠ '.') (h : wildMatch ('*' :: p) k = true) :
    wildMatch ('*' :: p) (s ++ k) = true := by
  induction s with
  | nil => simpa using h
  | cons c s ih =>
    have hc : c ≠ '.' := hs c (List.mem_cons_self c s)
    rw [List.cons_append, wildMatch_star_cons]
    have h2 : wildMatch ('*' :: p) (s ++ k) = true :=
      ih (fun c hc2 => hs c (List.mem_cons_of_mem _ hc2))
    rw [h2]
    simp [hc]

theorem wildMatch_complete (p k : List Char) (h : WildSpec p k) :
    wildMatch p k = true := by
  induction h with
  | nil => rfl
  | lit hne _ ih =>
    rw [wildMatch_lit_cons _ _ _ _ hne, ih]
    simp
  | star s hs _ ih =>
    exact wildMatch_star_prepend _ _ _ hs (wildMatch_star_of _ _ ih)

theorem wildMatch_iff (p k : List Char) :
    wildMatch p k = true ↔ WildSpec p k :=
  ⟨wildMatch_sound p k, wildMatch_complete p k⟩

theorem wildSpec_refl (p : List Char) : WildSpec p p := by
  induction p with
  | nil => exact WildSpec.nil
  | cons c p ih =>
    by_cases hc : c = '*'
    · subst hc
      have := WildSpec.star ['*'] (by simp) ih
      simpa using this
    · exact WildSpec.lit hc ih

/- ----------------------------------------------------------------------
   Association-list lemmas.
---------------------------------------------------------------------- -/

theorem objFind_cons {α : Type} (p : String × α) (m : List (String × α))
    (k : String) :
    objFind (p :: m) k = if (p.1 == k) then some p.2 else objFind m k := by
  by_cases h : (p.1 == k) <;> simp [objFind, List.find?, h]

theorem objFind_objUpd_self {α : Type} (m : List (String × α)) (k : String)
    (v : α) : objFind (objUpd m k v) k = some v := by
  unfold objUpd
  by_cases h : m.any (fun p => p.1 == k)
  · rw [if_pos h]
    induction m with
    | nil => simp at h
    | cons p m ih =>
      simp only [List.map_cons]
      by_cases hp : (p.1 == k)
      · rw [if_pos hp, objFind_cons]
        simp
      · rw [if_neg hp, objFind_cons, if_neg (by simpa using hp)]
        have h' : m.any (fun q => q.1 == k) := by
          simp only [List.any_cons, hp, Bool.false_or] at h
          exact h
        exact ih h'
  · rw [if_neg h]
    have hnone : m.find? (fun p => p.1 == k) = none := by
      rw [List.find?_eq_none]
      intro p hp
      exact fun hb => h (List.any_eq_true.mpr ⟨p, hp, hb⟩)
    unfold objFind
    rw [List.find?_append, hnone]
    simp [List.find?]

theorem objFind_objUpd_ne {α : Type} (m : List (String × α)) (k k' : String)
    (v : α) (h : k' ≠ k) : objFind (objUpd m k v) k' = objFind m k' := by
  have hkk : ((k : String) == k') = false := by
    rw [beq_eq_false_iff_ne]
    exact fun hk => h hk.symm
  unfold objUpd
  by_cases hany : m.any (fun p => p.1 == k)
  · rw [if_pos hany]
    clear hany
    induction m with
    | nil => rfl
    | cons p m ih =>
      simp only [List.map_cons]
      by_cases hp : (p.1 == k)
      · have hp' : p.1 = k := by simpa using hp
        rw [if_pos hp, objFind_cons, if_neg (by simp [hkk]), objFind_cons,
          if_neg (by simp [hp']; exact fun hk => h hk.symm), ih]
      · rw [if_neg hp, objFind_cons, objFind_cons]
        by_cases hq : (p.1 == k')
        · rw [if_pos hq, if_pos hq]
        · rw [if_neg hq, if_neg hq, ih]
  · rw [if_neg hany]
    unfold objFind
    rw [List.find?_append]
    have h2 : List.find? (fun p => p.1 == k') [(k, v)] = none := by
      simp [List.find?, hkk]
    rw [h2]
    cases hf : m.find? (fun p => p.1 == k') <;> simp [hf]

theorem objFind_objUpd {α : Type} (m : List (String × α)) (k k' : String)
    (v v' : α) (h : objFind (objUpd m k v) k' = some v') :
    (k' = k ∧ v' = v) ∨ objFind m k' = some v' := by
  by_cases hk : k' = k
  · subst hk
    rw [objFind_objUpd_self] at h
    exact Or.inl ⟨rfl, (Option.some.injEq _ _ ▸ h).symm⟩
  · rw [objFind_objUpd_ne m k k' v hk] at h
    exact Or.inr h

/-- Invariance of a predicate along a left fold. -/
theorem foldl_invariant {α β : Type} (P : β → Prop) (f : β → α → β)
    (l : List α) (init : β) (h0 : P init)
    (hstep : ∀ b a, P b → P (f b a)) : P (l.foldl f init) := by
  induction l generalizing init with
  | nil => exact h0
  | cons a l ih => exact ih (f init a) (hstep init a h0)

/- ----------------------------------------------------------------------
   Extraction invariants: what the per-store maps of a snapshot contain.
---------------------------------------------------------------------- -/

theorem extractRowStep_keys (safeKeys : List String) (b : UIStateData × Bool)
    (a : String × String)
    (hP : ∀ k v, objFind b.1 k = some v → k = markerKey ∨ isSafeKey k safeKeys = true) :
    ∀ k v, objFind (extractRowStep safeKeys b a).1 k = some v →
      k = markerKey ∨ isSafeKey k safeKeys = true := by
  unfold extractRowStep
  by_cases he : a.1 = ""
  · rw [if_pos he]; exact hP
  · rw [if_neg he]
    by_cases hc : (a.1 == markerKey || isSafeKey a.1 safeKeys) = true
    · rw [if_pos hc]
      intro k v h
      rcases objFind_objUpd b.1 a.1 k a.2 v h with ⟨hk, _⟩ | hold
      · subst hk
        rcases Bool.or_eq_true_iff.mp hc with h1 | h1
        · exact Or.inl (by simpa using h1)
        · exact Or.inr h1
      · exact hP k v hold
    · rw [if_neg hc]; exact hP

theorem extractTableSafeData_keys (safeKeys : List String)
    (rows : List (String × String)) :
    ∀ k v, objFind (extractTableSafeData safeKeys rows).1 k = some v →
      k = markerKey ∨ isSafeKey k safeKeys = true := by
  unfold extractTableSafeData
  refine foldl_invariant
    (fun acc : UIStateData × Bool => ∀ k v, objFind acc.1 k = some v →
      k = markerKey ∨ isSafeKey k safeKeys = true)
    (extractRowStep safeKeys) rows ([], false) ?_ ?_
  · intro k v h; simp [objFind, List.find?] at h
  · intro b a hP; exact extractRowStep_keys safeKeys b a hP

theorem extractRowStep_marker (safeKeys : List String) (b : UIStateData × Bool)
    (a : String × String)
    (hP : b.2 = true → (objFind b.1 markerKey).isSome = true) :
    (extractRowStep safeKeys b a).2 = true →
      (objFind (extractRowStep safeKeys b a).1 markerKey).isSome = true := by
  unfold extractRowStep
  by_cases he : a.1 = ""
  · rw [if_pos he]; exact hP
  · rw [if_neg he]
    by_cases hc : (a.1 == markerKey || isSafeKey a.1 safeKeys) = true
    · rw [if_pos hc]
      intro hflag
      by_cases hm : a.1 = markerKey
      · rw [hm, objFind_objUpd_self]
        rfl
      · rw [objFind_objUpd_ne _ _ _ _ (fun hx => hm hx.symm)]
        have hb2 : b.2 = true := by
          rcases Bool.or_eq_true_iff.mp hflag with h1 | h1
          · exact h1
          · exact absurd (by simpa using h1) hm
        exact hP hb2
    · rw [if_neg hc]; exact hP

theorem extractTableSafeData_marker (safeKeys : List String)
    (rows : List (String × String))
    (h : (extractTableSafeData safeKeys rows).2 = true) :
    (objFind (extractTableSafeData safeKeys rows).1 markerKey).isSome = true := by
  revert h
  unfold extractTableSafeData
  refine foldl_invariant
    (fun acc : UIStateData × Bool => acc.2 = true →
      (objFind acc.1 markerKey).isSome = true)
    (extractRowStep safeKeys) rows ([], false) ?_ ?_
  · intro h2; simp at h2
  · intro b a hP; exact extractRowStep_marker safeKeys b a hP

theorem extractDatabase_store_maps (P : UIStateData → Prop)
    (safeKeys : List String) (db : Db)
    (hP : ∀ rows, (extractTableSafeData safeKeys rows).2 = true →
      P (extractTableSafeData safeKeys rows).1) :
    ∀ ws wsData t m, objFind (extractDatabase safeKeys db) ws = some wsData →
      objFind wsData t = some m → P m := by
  unfold extractDatabase
  refine foldl_invariant
    (fun result : ExtractedData => ∀ ws wsData t m,
      objFind result ws = some wsData → objFind wsData t = some m → P m)
    (extractDbStep safeKeys) db.tables [] ?_ ?_
  · intro ws wsData t m h1; simp [objFind, List.find?] at h1
  · intro b a hQ
    unfold extractDbStep
    dsimp only
    by_cases hflag : (extractTableSafeData safeKeys a.rows).2 = false
    · rw [if_pos hflag]; exact hQ
    · rw [if_neg hflag]
      have hsd2 : (extractTableSafeData safeKeys a.rows).2 = true := by
        revert hflag
        cases (extractTableSafeData safeKeys a.rows).2 <;> simp
      cases hroot : objFind (extractTableSafeData safeKeys a.rows).1 markerKey with
      | none => exact hQ
      | some rootVal =>
        dsimp only
        cases hgw : getWorkspaceName rootVal with
        | none => exact hQ
        | some ws0 =>
          dsimp only
          by_cases hws0 : ws0 = ""
          · rw [if_pos hws0]; exact hQ
          · rw [if_neg hws0]
            intro ws wsData t m h1 h2
            rcases objFind_objUpd b ws0 ws _ wsData h1 with ⟨hweq, hdeq⟩ | hold
            · subst hweq
              subst hdeq
              rcases objFind_objUpd _ a.name t _ m h2 with ⟨hteq, hmeq⟩ | holdt
              · subst hmeq
                exact hP a.rows hsd2
              · cases hb : objFind b ws with
                | none => rw [hb] at holdt; simp [objFind, List.find?] at holdt
                | some w =>
                  rw [hb] at holdt
                  exact hQ ws w t m hb holdt
            · exact hQ ws wsData t m hold h2

/- ----------------------------------------------------------------------
   Apply-frame, resolver-index and merge lemmas.
---------------------------------------------------------------------- -/

theorem updateTableRows_frame (rows : List (String × String))
    (newData : UIStateData) (k : String) (h : objFind newData k = none) :
    objFind (updateTableRows rows newData) k = objFind rows k := by
  induction newData generalizing rows with
  | nil => rfl
  | cons kv m ih =>
    rw [objFind_cons] at h
    by_cases hq : (kv.1 == k)
    · rw [if_pos hq] at h; exact absurd h (by simp)
    · rw [if_neg hq] at h
      have hne : k ≠ kv.1 := fun he => by simp [he] at hq
      calc objFind (updateTableRows rows (kv :: m)) k
          = objFind (updateTableRows (objUpd rows kv.1 kv.2) m) k := rfl
        _ = objFind (objUpd rows kv.1 kv.2) k := ih _ h
        _ = objFind rows k := objFind_objUpd_ne rows kv.1 k kv.2 hne

theorem jsIndexOf_eq_none (l : List String) (x : String) (h : x ∉ l) :
    jsIndexOf l x = none := by
  induction l with
  | nil => rfl
  | cons a l ih =>
    have ha : (a == x) = false := by
      rw [beq_eq_false_iff_ne]
      intro he; exact h (he ▸ List.mem_cons_self a l)
    rw [jsIndexOf, if_neg (by simp [ha]), ih (fun hm => h (List.mem_cons_of_mem _ hm))]
    rfl

theorem jsIndexOf_append_first (pre post : List String) (x : String)
    (h : x ∉ pre) : jsIndexOf (pre ++ x :: post) x = some pre.length := by
  induction pre with
  | nil => simp [jsIndexOf]
  | cons a pre ih =>
    have ha : (a == x) = false := by
      rw [beq_eq_false_iff_ne]
      intro he; exact h (he ▸ List.mem_cons_self a pre)
    rw [List.cons_append, jsIndexOf, if_neg (by simp [ha]),
      ih (fun hm => h (List.mem_cons_of_mem _ hm))]
    rfl

theorem getD_append_getLastD : ∀ (pre rest : List String), pre ≠ [] →
    (pre ++ rest).getD (pre.length - 1) "" = pre.getLastD "" := by
  intro pre
  induction pre with
  | nil => intro rest h; exact absurd rfl h
  | cons a pre ih =>
    intro rest _
    match pre with
    | [] => simp [List.getD]
    | b :: pre' =>
      have := ih rest (by simp)
      simpa [List.getD, List.getLastD] using this

theorem wildSpec_insert_star : ∀ a b : List Char, WildSpec (a ++ '*' :: b) (a ++ b) := by
  intro a
  induction a with
  | nil =>
    intro b
    have := WildSpec.star [] (by simp) (wildSpec_refl b)
    simpa using this
  | cons c a ih =>
    intro b
    by_cases hc : c = '*'
    · subst hc
      have := WildSpec.star ['*'] (by simp) (ih b)
      simpa using this
    · exact WildSpec.lit hc (ih b)

theorem foldl_extractDbStepF_none (safeKeys : List String) (l : List FTable) :
    l.foldl (extractDbStepF safeKeys) none = none := by
  induction l with
  | nil => rfl
  | cons a l ih => exact ih

theorem foldl_extractDbStepF_mem_none (safeKeys : List String) :
    ∀ (l : List FTable) (acc : ExtractedData) (t : FTable), t ∈ l →
      t.readRows = none → l.foldl (extractDbStepF safeKeys) (some acc) = none := by
  intro l
  induction l with
  | nil => intro acc t hmem; exact absurd hmem (List.not_mem_nil t)
  | cons a l ih =>
    intro acc t hmem hnone
    rw [List.foldl_cons]
    rcases List.mem_cons.mp hmem with he | hm
    · subst he
      show l.foldl (extractDbStepF safeKeys) (extractDbStepF safeKeys (some acc) t) = none
      unfold extractDbStepF
      rw [hnone]
      exact foldl_extractDbStepF_none safeKeys l
    · cases ha : a.readRows with
      | none =>
        show l.foldl (extractDbStepF safeKeys) (extractDbStepF safeKeys (some acc) a) = none
        unfold extractDbStepF
        rw [ha]
        exact foldl_extractDbStepF_none safeKeys l
      | some rows =>
        have hstep : extractDbStepF safeKeys (some acc) a =
            some (extractDbStep safeKeys acc ⟨a.name, rows⟩) := by
          unfold extractDbStepF
          rw [ha]
        rw [hstep]
        exact ih _ t hm hnone

theorem foldl_extractDbStepF_all_some (safeKeys : List String) :
    ∀ (l : List FTable) (acc : ExtractedData),
      (∀ t ∈ l, t.readRows.isSome = true) →
      l.foldl (extractDbStepF safeKeys) (some acc) =
        some ((l.map (fun t => DbTable.mk t.name (t.readRows.getD []))).foldl
          (extractDbStep safeKeys) acc) := by
  intro l
  induction l with
  | nil => intro acc _; rfl
  | cons a l ih =>
    intro acc h
    rcases Option.isSome_iff_exists.mp (h a (List.mem_cons_self a l)) with ⟨rows, ha⟩
    have hstep : extractDbStepF safeKeys (some acc) a =
        some (extractDbStep safeKeys acc ⟨a.name, rows⟩) := by
      unfold extractDbStepF
      rw [ha]
    have hu : DbTable.mk a.name (a.readRows.getD []) = ⟨a.name, rows⟩ := by
      rw [ha]
      rfl
    rw [List.foldl_cons, hstep, List.map_cons, List.foldl_cons, hu]
    exact ih _ (fun t ht => h t (List.mem_cons_of_mem a ht))

/- ----------------------------------------------------------------------
   Claims.
---------------------------------------------------------------------- -/

/-- Claim C1, counterexample: on the sample storage the extraction result
exposes the root-marker key as an ordinary entry of the per-store map of
(projA, ItemTable), contradicting the claim that no per-store map ever
contains it. -/
theorem c1_counterexample :
    objFind ((objFind ((objFind (extractDatabase sampleKeys sampleDb)
        "projA").getD []) "ItemTable").getD []) "debug.selectedroot" =
      some "file:///home/u/projA/.vscode/launch.json" := by decide

/-- Claim C1, amended: far from excluding it, extraction keeps the
root-marker key in every per-store map it emits; a per-store map reached
through the snapshot always contains the marker key. -/
theorem c1_marker_in_every_store (safeKeys : List String) (db : Db)
    (ws t : String) (wsData : WorkspaceData) (m : UIStateData)
    (hws : objFind (extractDatabase safeKeys db) ws = some wsData)
    (ht : objFind wsData t = some m) :
    (objFind m markerKey).isSome = true :=
  extractDatabase_store_maps (fun m => (objFind m markerKey).isSome = true)
    safeKeys db (fun rows h => extractTableSafeData_marker safeKeys rows h)
    ws wsData t m hws ht

/-- Claim C1, witness: the amended theorem applied to the sample storage. -/
theorem c1_witness : (objFind sampleStoreMap markerKey).isSome = true :=
  c1_marker_in_every_store sampleKeys sampleDb "projA" "ItemTable"
    sampleWorkspaceData sampleStoreMap (by decide) (by decide)

/-- Claim C2: every key other than the root-marker key that appears in a
per-store map of the extraction result passes isSafeKey for the SafeKeySet
in force; a key matching no pattern can never appear. -/
theorem c2_only_safe_keys (safeKeys : List String) (db : Db)
    (ws t k v : String) (wsData : WorkspaceData) (m : UIStateData)
    (hws : objFind (extractDatabase safeKeys db) ws = some wsData)
    (ht : objFind wsData t = some m)
    (hk : objFind m k = some v) (hne : k ≠ markerKey) :
    isSafeKey k safeKeys = true := by
  rcases extractDatabase_store_maps
      (fun m => ∀ k v, objFind m k = some v →
        k = markerKey ∨ isSafeKey k safeKeys = true)
      safeKeys db (fun rows _ => extractTableSafeData_keys safeKeys rows)
      ws wsData t m hws ht k v hk with h | h
  · exact absurd h hne
  · exact h

/-- Claim C2, witness: the theorem applied to the allowed key of the
sample storage. -/
theorem c2_witness : isSafeKey "workbench.sideBar.hidden" sampleKeys = true :=
  c2_only_safe_keys sampleKeys sampleDb "projA" "ItemTable"
    "workbench.sideBar.hidden" "true" sampleWorkspaceData sampleStoreMap
    (by decide) (by decide) (by decide) (by decide)

/-- Claim C3: the apply pass upserts only the keys present in the matched
incoming map; any key absent from that map keeps its pre-apply value, and
an unmatched table is untouched, so apply merges and never replaces. -/
theorem c3_apply_frame (newState : ExtractedData) (t : DbTable) (k : String)
    (h : ∀ m, matchedMap newState t = some m → objFind m k = none) :
    objFind (applyTable newState t).rows k = objFind t.rows k := by
  unfold applyTable
  cases hm : matchedMap newState t with
  | none => rfl
  | some m => exact updateTableRows_frame t.rows m k (h m hm)

/-- Claim C3, witness: applying the sample incoming snapshot leaves the
value of the key absent from it unchanged. -/
theorem c3_witness :
    objFind (applyTable c3NewState c3Table).rows "secret.token" =
      objFind c3Table.rows "secret.token" := by
  apply c3_apply_frame
  intro m hm
  have h : matchedMap c3NewState c3Table =
      some [("workbench.sideBar.hidden", "false")] := by decide
  rw [h] at hm
  cases hm
  decide

/-- Claim C4: the command tag the host posts for an incoming snapshot,
gistSettingsSync.importUiState, is not one of the tags the sandbox message
listener dispatches, so it falls through to the default case and no apply
pass runs; the code contradicts the protocol the specification states. -/
theorem c4_import_command_not_dispatched :
    dispatchWebviewCommand importUiStateCommand = SandboxAction.ignored ∧
      SandboxAction.ignored ≠ SandboxAction.applyUiState := by
  exact ⟨by decide, by decide⟩

/-- Claim C5, counterexample: two bare starts from the idle scheduler
leave two live interval timers, contradicting the claim that starting
replaces any prior timer. -/
theorem c5_counterexample :
    (startUiSync (startUiSync idleScheduler)).activeTimers.length = 2 := by
  decide

/-- Claim C5, amended: start does not cancel the prior timer, so exactly
one live timer after a second start is guaranteed only by the
stop-then-start restart a settings change performs: from any state whose
live timers are exactly the held handle, restart leaves exactly one live
timer and restores that invariant. -/
theorem c5_restart_single_timer (s : SchedulerState)
    (h : s.activeTimers = s.syncTimer.toList) :
    (restartUiSync s).activeTimers.length = 1 ∧
      (restartUiSync s).activeTimers = (restartUiSync s).syncTimer.toList := by
  cases hst : s.syncTimer with
  | none =>
    rw [hst] at h
    simp [restartUiSync, stopUiSync, startUiSync, hst, h, Option.toList]
  | some t =>
    rw [hst] at h
    simp [restartUiSync, stopUiSync, startUiSync, hst, h, Option.toList]

/-- Claim C5, witness: the amended theorem applied to a running
scheduler. -/
theorem c5_witness :
    (restartUiSync (startUiSync idleScheduler)).activeTimers.length = 1 ∧
      (restartUiSync (startUiSync idleScheduler)).activeTimers =
        (restartUiSync (startUiSync idleScheduler)).syncTimer.toList :=
  c5_restart_single_timer (startUiSync idleScheduler) (by decide)

/-- Claim C6: for a pattern containing a wildcard, isSafeKey accepts a key
through that pattern exactly when the key equals the pattern with each
asterisk replaced by some run of characters containing no dot, anchored to
the whole key. -/
theorem c6_wildcard_pattern_semantics (pat key : String)
    (hw : pat.data.contains '*' = true) :
    isSafeKey key [pat] = true ↔ WildSpec pat.data key.data := by
  unfold isSafeKey
  constructor
  · intro h
    rcases Bool.or_eq_true_iff.mp h with h1 | h1
    · have hkey : key = pat := by simpa using h1
      subst hkey
      exact wildSpec_refl _
    · have h2 : (pat.data.contains '*' && wildMatch pat.data key.data) = true := by
        simpa using h1
      exact wildMatch_sound _ _ (Bool.and_eq_true_iff.mp h2).2
  · intro h
    apply Bool.or_eq_true_iff.mpr
    right
    simp only [List.any_cons, List.any_nil, Bool.or_false]
    exact Bool.and_eq_true_iff.mpr ⟨hw, wildMatch_complete _ _ h⟩

/-- Claim C6, witness: the pattern of the specification example accepts
the one-segment key. -/
theorem c6_witness :
    WildSpec "workbench.view.extension.*.state".data
      "workbench.view.extension.git.state".data :=
  (c6_wildcard_pattern_semantics "workbench.view.extension.*.state"
    "workbench.view.extension.git.state" (by decide)).mp (by decide)

/-- Claim C7, counterexample: on a marker whose .vscode segment is the
first path component the resolver returns the empty string, not null,
because splitting the absolute pathname leaves a leading empty segment
that becomes the preceding segment. -/
theorem c7_counterexample :
    getWorkspaceName "file:///.vscode/launch.json" = some "" := by decide

/-- Claim C7, amended: the resolver returns the split segment immediately
preceding the first .vscode segment whenever that segment sits at a
positive index, including the empty leading segment of an absolute path;
it returns null exactly when the URL fails to parse, no .vscode segment
exists, or the first .vscode segment sits at index zero of the split. -/
theorem c7_resolver :
    (∀ s, parseURLPathname s = none → getWorkspaceName s = none) ∧
    (∀ s p, parseURLPathname s = some p → ".vscode" ∉ splitOnSlash p →
      getWorkspaceName s = none) ∧
    (∀ s p post, parseURLPathname s = some p →
      splitOnSlash p = ".vscode" :: post → getWorkspaceName s = none) ∧
    (∀ s p pre post, parseURLPathname s = some p →
      splitOnSlash p = pre ++ ".vscode" :: post → ".vscode" ∉ pre → pre ≠ [] →
      getWorkspaceName s = some (pre.getLastD "")) := by
  refine ⟨?_, ?_, ?_, ?_⟩
  · intro s h
    unfold getWorkspaceName
    rw [h]
  · intro s p h hmem
    unfold getWorkspaceName
    rw [h]
    dsimp only
    rw [jsIndexOf_eq_none _ _ hmem]
  · intro s p post h hsplit
    unfold getWorkspaceName
    rw [h]
    dsimp only
    have : jsIndexOf (splitOnSlash p) ".vscode" = some 0 := by
      rw [hsplit]
      simpa using jsIndexOf_append_first [] post ".vscode" (by simp)
    rw [this]
    dsimp only
    simp
  · intro s p pre post h hsplit hmem hne
    unfold getWorkspaceName
    rw [h]
    dsimp only
    have hidx : jsIndexOf (splitOnSlash p) ".vscode" = some pre.length := by
      rw [hsplit]
      exact jsIndexOf_append_first pre post ".vscode" hmem
    rw [hidx]
    dsimp only
    have hpos : 0 < pre.length := List.length_pos.mpr hne
    rw [if_pos hpos]
    rw [hsplit, getD_append_getLastD pre _ hne]

/-- Claim C7, witness: the amended theorem applied to the example URL of
the specification resolves to proj1. -/
theorem c7_witness :
    getWorkspaceName "file:///home/u/proj1/.vscode/launch.json" =
      some "proj1" := by
  have h := c7_resolver.2.2.2 "file:///home/u/proj1/.vscode/launch.json"
    "/home/u/proj1/.vscode/launch.json" ["", "home", "u", "proj1"]
    ["launch.json"] (by decide) (by decide) (by decide) (by decide)
  exact h.trans (by decide)

/-- Claim C8, counterexample: two stores of one database, ItemTable read
successfully and a sibling whose read throws; the uncaught per-table
exception rejects the whole database, so the snapshot is empty and loses
ItemTable's data that the run without the failing store delivers — a
single store's read failure does suppress the data of another store. -/
theorem c8_counterexample :
    syncUIStateF sampleKeys [mixedFDb] = [] ∧
    syncUIStateF sampleKeys [fineFDb] =
      [("projA", [("ItemTable", sampleStoreMap)])] :=
  ⟨by decide, by decide⟩

/-- Claim C8, amended: failure isolation holds at database granularity:
a table read failure anywhere in a database rejects that whole database's
extraction (first conjunct); the rejection is caught per database, so the
extraction run does not throw and returns exactly what the run without
that database returns (second conjunct); and a database all of whose
tables read successfully contributes exactly the infallible extraction
result (third conjunct). -/
theorem c8_failure_database_granularity :
    (∀ (safeKeys : List String) (fdb : FDb) (t : FTable), t ∈ fdb.tables →
      t.readRows = none → extractDatabaseF safeKeys fdb = none) ∧
    (∀ (safeKeys : List String) (pre post : List FDb) (fdb : FDb),
      extractDatabaseF safeKeys fdb = none →
      syncUIStateF safeKeys (pre ++ fdb :: post) =
        syncUIStateF safeKeys (pre ++ post)) ∧
    (∀ (safeKeys : List String) (fdb : FDb),
      (∀ t ∈ fdb.tables, t.readRows.isSome = true) →
      extractDatabaseF safeKeys fdb =
        some (extractDatabase safeKeys
          ⟨fdb.tables.map (fun t => DbTable.mk t.name (t.readRows.getD []))⟩)) := by
  refine ⟨?_, ?_, ?_⟩
  · intro safeKeys fdb t hmem hnone
    exact foldl_extractDbStepF_mem_none safeKeys fdb.tables [] t hmem hnone
  · intro safeKeys pre post fdb h
    unfold syncUIStateF
    rw [List.map_append, List.map_append, List.foldl_append, List.foldl_append,
      List.map_cons, List.foldl_cons, h]
    rfl
  · intro safeKeys fdb h
    exact foldl_extractDbStepF_all_some safeKeys fdb.tables [] h

/-- Claim C8, witness: the amended theorem applied to the mixed database:
its extraction rejects, and the run with it equals the run without it. -/
theorem c8_witness :
    extractDatabaseF sampleKeys mixedFDb = none ∧
    syncUIStateF sampleKeys (mixedFDb :: [fineFDb]) =
      syncUIStateF sampleKeys [fineFDb] := by
  constructor
  · exact c8_failure_database_granularity.1 sampleKeys mixedFDb brokenTable
      (by decide) (by decide)
  · exact c8_failure_database_granularity.2.1 sampleKeys [] [fineFDb] mixedFDb
      (by rfl)

/-- Claim C9: a sync cycle reads the storage with read-only queries and
writes only the fallback document, so running a second cycle on the state
the first one leaves behind produces a value-equal snapshot, and the
storage is unchanged by a cycle. -/
theorem c9_idempotent (safeKeys : List String) (s : UiSyncState) :
    (syncUIStateCycle safeKeys (syncUIStateCycle safeKeys s).2).1 =
      (syncUIStateCycle safeKeys s).1 ∧
    (syncUIStateCycle safeKeys s).2.storage = s.storage :=
  ⟨rfl, rfl⟩

/-- Claim C10: a wildcard also matches the empty run: any key equal to its
pattern with one asterisk deleted is accepted by isSafeKey. -/
theorem c10_wildcard_matches_empty_run (a b : List Char) (pat key : String)
    (hp : pat.data = a ++ '*' :: b) (hk : key.data = a ++ b) :
    isSafeKey key [pat] = true := by
  unfold isSafeKey
  apply Bool.or_eq_true_iff.mpr
  right
  simp only [List.any_cons, List.any_nil, Bool.or_false]
  apply Bool.and_eq_true_iff.mpr
  constructor
  · rw [hp]
    have hmem : '*' ∈ a ++ '*' :: b :=
      List.mem_append_right a (List.mem_cons_self '*' b)
    simp
  · rw [hp, hk]
    exact wildMatch_complete _ _ (wildSpec_insert_star a b)

/-- Claim C10, witness: the specification example pattern accepts the key
with consecutive dots obtained by deleting the wildcard. -/
theorem c10_witness :
    isSafeKey "workbench.view.extension..state"
      ["workbench.view.extension.*.state"] = true :=
  c10_wildcard_matches_empty_run "workbench.view.extension.".data
    ".state".data "workbench.view.extension.*.state"
    "workbench.view.extension..state" (by decide) (by decide)

end GistSync
